import Mathlib

/-!
Verification of the structured-row indexing and query core of the
trustgraph repository, as a shallow embedding in Lean 4.

The embedded components are:
  * the Cassandra row writer (`trustgraph/storage/rows/cassandra/write.py`),
  * the Cassandra row query service (`trustgraph/query/rows/cassandra/service.py`),
  * the row embeddings computer (`trustgraph/embeddings/row_embeddings/embeddings.py`),
  * the Qdrant row embeddings writer (`trustgraph/storage/row_embeddings/qdrant/write.py`),
  * the Qdrant row embeddings query service (`trustgraph/query/row_embeddings/qdrant/service.py`),
  * the GraphQL filter plumbing (`trustgraph/query/graphql/filters.py`, `types.py`).

Python dictionaries are modelled as association lists in insertion order
(first binding wins on lookup, matching unique-key dicts), strings as
Lean strings, and the external stores (Cassandra, Qdrant) as explicit
lists of rows/collections with the executed statements reified as
effect values.
-/

namespace TrustGraph

/-! ## Characters and name sanitization

`Processor.sanitize_name` (identical in write.py and the two query
services) does `re.sub(r'[^a-zA-Z0-9_]', '_', name)`, prepends `r_` when
the first character is not a letter, then lowercases.  The regex class is
ASCII, so the substitution is a per-character map; after it every
character is in `[A-Za-z0-9_]`, on which Python `str.isalpha` and
`str.lower` agree with the ASCII tests and `Char.toLower` used below. -/

/-- Membership in the character class `[A-Za-z0-9_]` of the sanitizer regex. -/
def isWordChar (c : Char) : Bool :=
  (65 ≤ c.toNat && c.toNat ≤ 90) || (97 ≤ c.toNat && c.toNat ≤ 122) ||
    (48 ≤ c.toNat && c.toNat ≤ 57) || c.toNat == 95

/-- ASCII letter test; agrees with Python `str.isalpha` on `[A-Za-z0-9_]`,
the only alphabet to which the code applies it. -/
def isAsciiLetter (c : Char) : Bool :=
  (65 ≤ c.toNat && c.toNat ≤ 90) || (97 ≤ c.toNat && c.toNat ≤ 122)

/-- Step of `sanitize_name` that ensures the name starts with a letter:
`if safe_name and not safe_name[0].isalpha(): safe_name = 'r_' + safe_name`. -/
def prependIfNotLetter (safe_name : List Char) : List Char :=
  match safe_name with
  | [] => []
  | c :: _ => if isAsciiLetter c then safe_name else 'r' :: '_' :: safe_name

/-- Character-list body of `sanitize_name`: regex substitution, the
conditional `r_` prepend, then `.lower()`. -/
def sanitizeChars (l : List Char) : List Char :=
  (prependIfNotLetter (l.map (fun c => if isWordChar c then c else '_'))).map
    Char.toLower

/-- `Processor.sanitize_name` from `storage/rows/cassandra/write.py`
lines 185-191 (the query services carry a byte-identical copy). -/
def sanitize_name (name : String) : String :=
  String.mk (sanitizeChars name.data)

/-- Character class `[a-z]`, the head class of the claimed pattern. -/
def isLowerLetter (c : Char) : Bool :=
  97 ≤ c.toNat && c.toNat ≤ 122

/-- Character class `[a-z0-9_]`, the tail class of the claimed pattern. -/
def isTailChar (c : Char) : Bool :=
  (97 ≤ c.toNat && c.toNat ≤ 122) || (48 ≤ c.toNat && c.toNat ≤ 57) ||
    c.toNat == 95

/-- Decidable rendering of `^[a-z][a-z0-9_]*$` on character lists. -/
def matchesSanChars (l : List Char) : Bool :=
  match l with
  | [] => false
  | c :: rest => isLowerLetter c && rest.all isTailChar

/-- Decidable rendering of the regular expression `^[a-z][a-z0-9_]*$`. -/
def matchesSanPattern (s : String) : Bool :=
  matchesSanChars s.data

theorem toLower_toNat_of_upper (c : Char) (h1 : 65 ≤ c.toNat) (h2 : c.toNat ≤ 90) :
    (Char.toLower c).toNat = c.toNat + 32 := by
  have hv : (c.toNat + 32).isValidChar := Or.inl (by omega)
  unfold Char.toLower
  rw [if_pos ⟨h1, h2⟩]
  simp only [Char.ofNat, dif_pos hv]
  simp [Char.ofNatAux, Char.toNat, UInt32.toNat]

theorem toLower_eq_of_not_upper (c : Char) (h : ¬ (65 ≤ c.toNat ∧ c.toNat ≤ 90)) :
    Char.toLower c = c := by
  unfold Char.toLower
  rw [if_neg h]

theorem isTailChar_toLower_of_word (c : Char) (h : isWordChar c = true) :
    isTailChar (Char.toLower c) = true := by
  by_cases hu : 65 ≤ c.toNat ∧ c.toNat ≤ 90
  · have hn := toLower_toNat_of_upper c hu.1 hu.2
    simp only [isTailChar, hn, Bool.or_eq_true, Bool.and_eq_true,
      decide_eq_true_eq, beq_iff_eq]
    omega
  · rw [toLower_eq_of_not_upper c hu]
    simp only [isWordChar, isTailChar, Bool.or_eq_true, Bool.and_eq_true,
      decide_eq_true_eq, beq_iff_eq] at h ⊢
    omega

theorem isLowerLetter_toLower_of_letter (c : Char) (h : isAsciiLetter c = true) :
    isLowerLetter (Char.toLower c) = true := by
  by_cases hu : 65 ≤ c.toNat ∧ c.toNat ≤ 90
  · have hn := toLower_toNat_of_upper c hu.1 hu.2
    simp only [isLowerLetter, hn, Bool.and_eq_true, decide_eq_true_eq]
    omega
  · rw [toLower_eq_of_not_upper c hu]
    simp only [isAsciiLetter, isLowerLetter, Bool.or_eq_true, Bool.and_eq_true,
      decide_eq_true_eq] at h ⊢
    omega

theorem toLower_eq_of_tail (c : Char) (h : isTailChar c = true) :
    Char.toLower c = c := by
  apply toLower_eq_of_not_upper
  simp only [isTailChar, Bool.or_eq_true, Bool.and_eq_true,
    decide_eq_true_eq, beq_iff_eq] at h
  omega

theorem isWordChar_of_tail (c : Char) (h : isTailChar c = true) :
    isWordChar c = true := by
  simp only [isTailChar, isWordChar, Bool.or_eq_true, Bool.and_eq_true,
    decide_eq_true_eq, beq_iff_eq] at h ⊢
  omega

theorem isAsciiLetter_of_lower (c : Char) (h : isLowerLetter c = true) :
    isAsciiLetter c = true := by
  simp only [isLowerLetter, isAsciiLetter, Bool.or_eq_true, Bool.and_eq_true,
    decide_eq_true_eq] at h ⊢
  omega

theorem isWordChar_sub (c : Char) :
    isWordChar (if isWordChar c then c else '_') = true := by
  by_cases h : isWordChar c = true
  · simp [h]
  · simp only [h]
    simp [isWordChar]

theorem map_fix_of_fix {α : Type} (f : α → α) (l : List α)
    (h : ∀ c ∈ l, f c = c) : l.map f = l := by
  induction l with
  | nil => rfl
  | cons a t ih =>
      simp only [List.map_cons]
      rw [h a (List.mem_cons_self a t), ih (fun c hc => h c (List.mem_cons_of_mem a hc))]

theorem sub_eq_of_word (c : Char) (h : isWordChar c = true) :
    (if isWordChar c then c else '_') = c := by
  simp [h]

theorem prependIfNotLetter_word (safe_name : List Char)
    (hword : ∀ e ∈ safe_name, isWordChar e = true) :
    ∀ e ∈ prependIfNotLetter safe_name, isWordChar e = true := by
  rcases safe_name with _ | ⟨a, t⟩
  · intro e he
    simp [prependIfNotLetter] at he
  · intro e he
    simp only [prependIfNotLetter] at he
    by_cases ha : isAsciiLetter a = true
    · rw [if_pos ha] at he
      exact hword e he
    · rw [if_neg ha] at he
      simp only [List.mem_cons] at he
      rcases he with rfl | rfl | rfl | he
      · decide
      · decide
      · exact hword _ (List.mem_cons_self _ _)
      · exact hword e (List.mem_cons_of_mem _ he)

/-- Every character of a sanitized name lies in `[a-z0-9_]`. -/
theorem sanitizeChars_tail (l : List Char) :
    ∀ c ∈ sanitizeChars l, isTailChar c = true := by
  intro c hc
  unfold sanitizeChars at hc
  obtain ⟨d, hd, rfl⟩ := List.mem_map.mp hc
  apply isTailChar_toLower_of_word
  apply prependIfNotLetter_word _ _ d hd
  intro e he
  obtain ⟨u, _, rfl⟩ := List.mem_map.mp he
  exact isWordChar_sub u

/-- On a nonempty input, the sanitizer output matches `^[a-z][a-z0-9_]*$`. -/
theorem sanitizeChars_matches (l : List Char) (hl : l ≠ []) :
    matchesSanChars (sanitizeChars l) = true := by
  have htail : ∀ c ∈ sanitizeChars l, isTailChar c = true := sanitizeChars_tail l
  rcases l with _ | ⟨a, t⟩
  · exact absurd rfl hl
  · unfold sanitizeChars at htail ⊢
    simp only [List.map_cons] at htail ⊢
    set fa := if isWordChar a then a else '_' with hfa
    set ft := t.map (fun c => if isWordChar c then c else '_') with hft
    by_cases ha : isAsciiLetter fa = true
    · simp only [prependIfNotLetter, if_pos ha, List.map_cons] at htail ⊢
      simp only [matchesSanChars, Bool.and_eq_true]
      constructor
      · exact isLowerLetter_toLower_of_letter fa ha
      · rw [List.all_eq_true]
        intro c hcm
        exact htail c (List.mem_cons_of_mem _ hcm)
    · simp only [prependIfNotLetter, if_neg ha, List.map_cons] at htail ⊢
      simp only [matchesSanChars, Bool.and_eq_true]
      constructor
      · decide
      · rw [List.all_eq_true]
        intro c hcm
        exact htail c (List.mem_cons_of_mem _ hcm)

/-- The sanitizer fixes any list of `[a-z0-9_]` characters that is empty
or starts with a lowercase letter. -/
theorem sanitizeChars_fix (l : List Char)
    (htail : ∀ c ∈ l, isTailChar c = true)
    (hhead : matchesSanChars l = true ∨ l = []) :
    sanitizeChars l = l := by
  have hmap : l.map (fun c => if isWordChar c then c else '_') = l :=
    map_fix_of_fix _ l (fun c hc => sub_eq_of_word c (isWordChar_of_tail c (htail c hc)))
  unfold sanitizeChars
  rw [hmap]
  rcases l with _ | ⟨a, t⟩
  · rfl
  · rcases hhead with hm | hemp
    · simp only [matchesSanChars, Bool.and_eq_true] at hm
      have ha : isAsciiLetter a = true := isAsciiLetter_of_lower a hm.1
      simp only [prependIfNotLetter, if_pos ha]
      exact map_fix_of_fix _ _ (fun c hc => toLower_eq_of_tail c (htail c hc))
    · exact absurd hemp (by simp)

/-- CLAIM C7 (amended): `sanitize_name` is idempotent on every input, and
on every nonempty input its output matches `^[a-z][a-z0-9_]*$` (the empty
string maps to the empty string, which the pattern rejects). -/
theorem c7_sanitize_idempotent_and_pattern (x : String) :
    sanitize_name (sanitize_name x) = sanitize_name x ∧
      (x ≠ "" → matchesSanPattern (sanitize_name x) = true) := by
  constructor
  · show String.mk (sanitizeChars (sanitizeChars x.data)) = String.mk (sanitizeChars x.data)
    congr 1
    apply sanitizeChars_fix
    · exact sanitizeChars_tail x.data
    · rcases hx : x.data with _ | ⟨a, t⟩
      · right
        rw [show sanitizeChars [] = [] from rfl]
      · left
        rw [← hx]
        exact sanitizeChars_matches x.data (by rw [hx]; simp)
  · intro hx
    have hd : x.data ≠ [] := by
      intro h
      apply hx
      cases x
      simp at h
      simp [h]
    exact sanitizeChars_matches x.data hd

/-- CLAIM C7 counterexample: on the empty string the sanitizer returns the
empty string, which does not match `^[a-z][a-z0-9_]*$`; so the claim as
stated (pattern match for every input string) fails at `x = ""`. -/
theorem c7_counterexample :
    sanitize_name "" = "" ∧ matchesSanPattern (sanitize_name "") = false := by
  constructor
  · rfl
  · rfl

/-- Witness for C7 at the concrete input `"9a B!"`. -/
theorem c7_witness :
    sanitize_name (sanitize_name "9a B!") = sanitize_name "9a B!" ∧
      matchesSanPattern (sanitize_name "9a B!") = true := by
  have h := c7_sanitize_idempotent_and_pattern "9a B!"
  exact ⟨h.1, h.2 (by decide)⟩

/-! ## Data model

`RowSchema` and `Field` mirror the dataclasses used by every processor
(`trustgraph-base/trustgraph/schema`); only the attributes the embedded
code reads are carried.  `Metadata` and `ExtractedObject` mirror the
message schemas.  Row values are string-keyed string-valued maps,
modelled as association lists. -/

structure Field where
  name : String
  type : String
  primary : Bool
  indexed : Bool
  required : Bool
  deriving DecidableEq, Repr

structure RowSchema where
  name : String
  description : String
  fields : List Field
  deriving DecidableEq, Repr

structure Metadata where
  id : String
  user : String
  collection : String
  source : String
  deriving DecidableEq, Repr

structure ExtractedObject where
  metadata : Metadata
  schema_name : String
  values : List (List (String × String))
  deriving DecidableEq, Repr

/-- `Processor.get_index_names` (write.py lines 267-285; the query and
embeddings processors carry the equivalent `primary or indexed` loop):
one single-field index per field with `primary` or `indexed` set, in
schema-field order. -/
def get_index_names (schema : RowSchema) : List String :=
  schema.fields.filterMap (fun f =>
    if f.primary then some f.name
    else if f.indexed then some f.name
    else none)

/-- Python `str.split(",")` on character lists: structural recursion so
that concrete witnesses evaluate in the kernel. -/
def splitCommaChars (l : List Char) : List (List Char) :=
  match l with
  | [] => [[]]
  | c :: t =>
      let r := splitCommaChars t
      if c == ',' then [] :: r
      else
        match r with
        | [] => [[c]]
        | h :: t2 => (c :: h) :: t2

/-- Python `str.split(",")`. -/
def pySplitComma (s : String) : List String :=
  (splitCommaChars s.data).map String.mk

/-- ASCII whitespace recognized by Python `str.strip` on the field names
occurring here. -/
def isSpaceChar (c : Char) : Bool :=
  c == ' ' || c == '\t' || c == '\n' || c == '\r'

/-- Python `str.strip()`. -/
def pyStrip (s : String) : String :=
  String.mk (((s.data.dropWhile isSpaceChar).reverse.dropWhile
    isSpaceChar).reverse)

/-- `Processor.build_index_value` (write.py lines 319-333): split the
index name on commas, strip each part, and look each field up in the
value map, stringifying missing values to `""`. -/
def build_index_value (value_map : List (String × String))
    (index_name : String) : List String :=
  (pySplitComma index_name).map (fun f =>
    match value_map.lookup (pyStrip f) with
    | some v => v
    | none => "")

/-- Skip test applied to an index value before writing or embedding:
`if not index_value or all(v == "" for v in index_value)`. -/
def indexValueSkipped (index_value : List String) : Bool :=
  index_value.isEmpty || index_value.all (fun v => v == "")

/-- The skip test fires exactly on lists that are entirely empty strings
(the `not index_value` disjunct is absorbed: an empty list is vacuously
all-empty). -/
theorem indexValueSkipped_eq_all_empty (iv : List String) :
    indexValueSkipped iv = iv.all (fun v => v == "") := by
  cases iv with
  | nil => rfl
  | cons a t => simp [indexValueSkipped]

/-! ## Row Writer (`storage/rows/cassandra/write.py`)

State carries the loaded schemas and the `(collection, schema_name)`
partition-registration cache.  The keyspace/table DDL caches
(`known_keyspaces`, `tables_initialized`) guard idempotent
`CREATE ... IF NOT EXISTS` statements only and are not modelled; no
claim concerns them.  Executed `INSERT` statements are reified as
`PartitionInsert` (into `row_partitions`) and `RowInsert` (into `rows`)
effect values.  `collection_exists` lives in the external
`CollectionConfigHandler`; it is modelled from the spec ("Collection
must exist per the external Collection Registry") as membership of
`(user, collection)` in a given registry list. -/

structure PartitionInsert where
  collection : String
  schema_name : String
  index_name : String
  deriving DecidableEq, Repr

structure RowInsert where
  collection : String
  schema_name : String
  index_name : String
  index_value : List String
  data : List (String × String)
  source : String
  deriving DecidableEq, Repr

structure WriterState where
  schemas : List (String × RowSchema)
  registeredPartitions : List (String × String)
  deriving DecidableEq, Repr

/-- `Processor.register_partitions` (write.py lines 287-317): on a cache
miss with a known schema, insert one `row_partitions` entry per active
index and add the pair to the cache. -/
def register_partitions (state : WriterState)
    (collection schema_name : String) :
    List PartitionInsert × WriterState :=
  if (collection, schema_name) ∈ state.registeredPartitions then ([], state)
  else
    match state.schemas.lookup schema_name with
    | none => ([], state)
    | some schema =>
        ((get_index_names schema).map
           (fun index_name => ⟨collection, schema_name, index_name⟩),
         { state with
             registeredPartitions :=
               (collection, schema_name) :: state.registeredPartitions })

/-- Per-row `data` map: every defined schema field that has a value in
the incoming map, stringified (write.py lines 389-394). -/
def buildDataMap (schema : RowSchema)
    (value_map : List (String × String)) : List (String × String) :=
  schema.fields.filterMap (fun f =>
    (value_map.lookup f.name).map (fun v => (f.name, v)))

/-- Inner loop of `Processor.on_object` (write.py lines 386-419): one
`rows` insert per (row, active index) pair, skipping indexes whose value
list is empty/all-empty. -/
def rowInsertsFor (schema : RowSchema)
    (collection schema_name source : String) (index_names : List String)
    (values : List (List (String × String))) : List RowInsert :=
  values.flatMap (fun value_map =>
    let data_map := buildDataMap schema value_map
    index_names.filterMap (fun index_name =>
      let index_value := build_index_value value_map index_name
      if indexValueSkipped index_value then none
      else some ⟨collection, schema_name, index_name, index_value,
                 data_map, source⟩))

/-- Outcome of one `on_object` call: the ValueError raised on an unknown
collection, the soft drop on an unknown schema, or the executed inserts. -/
inductive WriteOutcome where
  | rejected (error : String)
  | dropped
  | written (partitionInserts : List PartitionInsert)
      (rowInserts : List RowInsert)
  deriving DecidableEq, Repr

def WriteOutcome.partitionInserts : WriteOutcome → List PartitionInsert
  | .written p _ => p
  | _ => []

def WriteOutcome.rowInserts : WriteOutcome → List RowInsert
  | .written _ r => r
  | _ => []

def WriteOutcome.isWritten : WriteOutcome → Bool
  | .written _ _ => true
  | _ => false

/-- `Processor.on_object` (write.py lines 335-424).  `collections` is the
external Collection Registry (modelled from the spec as the set of
existing `(user, collection)` pairs). -/
def on_object (collections : List (String × String)) (state : WriterState)
    (obj : ExtractedObject) : WriteOutcome × WriterState :=
  if (obj.metadata.user, obj.metadata.collection) ∉ collections then
    (.rejected ("Collection " ++ obj.metadata.collection ++
       " does not exist. Create it first via collection management API."),
     state)
  else
    match state.schemas.lookup obj.schema_name with
    | none => (.dropped, state)
    | some schema =>
        let pr := register_partitions state obj.metadata.collection
          obj.schema_name
        let index_names := get_index_names schema
        if index_names.isEmpty then (.written pr.1 [], pr.2)
        else
          (.written pr.1
            (rowInsertsFor schema obj.metadata.collection obj.schema_name
              obj.metadata.source index_names obj.values),
           pr.2)

theorem length_filterMap_skip {α β : Type} (p : α → Bool) (g : α → β)
    (l : List α) :
    (l.filterMap (fun a => if p a then none else some (g a))).length
      = (l.filter (fun a => !(p a))).length := by
  induction l with
  | nil => rfl
  | cons a t ih =>
      by_cases h : p a = true
      · simp [List.filterMap_cons, List.filter_cons, h, ih]
      · simp [List.filterMap_cons, List.filter_cons, h, ih]

theorem length_flatMap_const {α β : Type} (f : α → List β) (l : List α)
    (N : ℕ) (h : ∀ x ∈ l, (f x).length = N) :
    (l.flatMap f).length = N * l.length := by
  induction l with
  | nil => simp
  | cons a t ih =>
      simp only [List.flatMap_cons, List.length_append, List.length_cons]
      rw [h a (List.mem_cons_self a t),
        ih (fun x hx => h x (List.mem_cons_of_mem a hx))]
      ring

/-- CLAIM C1: an accepted write (collection registered, schema known,
partition cache fresh, at least one active index) with `R` rows each
having `N` non-empty indexes executes exactly `N·R` inserts into `rows`;
a per-row index is skipped exactly when its index value is entirely
empty strings; and `row_partitions` receives exactly one insert per
active index of the schema, independent of the row count. -/
theorem c1_write_amplification (collections : List (String × String))
    (state : WriterState) (obj : ExtractedObject) (schema : RowSchema)
    (N : ℕ)
    (hcoll : (obj.metadata.user, obj.metadata.collection) ∈ collections)
    (hschema : state.schemas.lookup obj.schema_name = some schema)
    (hfresh : (obj.metadata.collection, obj.schema_name) ∉
      state.registeredPartitions)
    (hidx : (get_index_names schema).isEmpty = false)
    (hN : ∀ vm ∈ obj.values,
      ((get_index_names schema).filter
        (fun i => !(indexValueSkipped (build_index_value vm i)))).length
        = N) :
    (on_object collections state obj).1.isWritten = true ∧
    (on_object collections state obj).1.rowInserts.length
      = N * obj.values.length ∧
    (on_object collections state obj).1.partitionInserts
      = (get_index_names schema).map
        (fun i => ⟨obj.metadata.collection, obj.schema_name, i⟩) ∧
    ∀ vm ∈ obj.values, ∀ i ∈ get_index_names schema,
      indexValueSkipped (build_index_value vm i)
        = (build_index_value vm i).all (fun v => v == "") := by
  have hout : (on_object collections state obj).1
      = WriteOutcome.written
          ((get_index_names schema).map
            (fun i => ⟨obj.metadata.collection, obj.schema_name, i⟩))
          (rowInsertsFor schema obj.metadata.collection obj.schema_name
            obj.metadata.source (get_index_names schema) obj.values) := by
    unfold on_object
    rw [if_neg (by simp only [not_not]; exact hcoll)]
    rw [hschema]
    simp only [register_partitions, if_neg hfresh, hschema, hidx,
      Bool.false_eq_true, if_false]
  refine ⟨by rw [hout]; rfl, ?_, by rw [hout]; rfl, ?_⟩
  · rw [hout]
    show (rowInsertsFor schema obj.metadata.collection obj.schema_name
      obj.metadata.source (get_index_names schema) obj.values).length
      = N * obj.values.length
    unfold rowInsertsFor
    apply length_flatMap_const
    intro vm hvm
    have := length_filterMap_skip
      (fun i => indexValueSkipped (build_index_value vm i))
      (fun i => (⟨obj.metadata.collection, obj.schema_name, i,
        build_index_value vm i, buildDataMap schema vm,
        obj.metadata.source⟩ : RowInsert))
      (get_index_names schema)
    rw [← hN vm hvm]
    exact this
  · intro vm _ i _
    exact indexValueSkipped_eq_all_empty (build_index_value vm i)

/-- Concrete `customer_records` schema of scenario S1 in the spec. -/
def customerRecordsSchema : RowSchema :=
  ⟨"customer_records", "Customer records",
   [⟨"customer_id", "string", true, false, true⟩,
    ⟨"name", "string", false, false, true⟩,
    ⟨"email", "string", false, true, false⟩,
    ⟨"age", "string", false, false, false⟩]⟩

def c1StateEx : WriterState :=
  ⟨[("customer_records", customerRecordsSchema)], []⟩

def c1ObjEx : ExtractedObject :=
  ⟨⟨"doc1", "test_user", "test_collection", ""⟩, "customer_records",
   [[("customer_id", "CUST001"), ("name", "John Doe"),
     ("email", "john@example.com"), ("age", "30")]]⟩

/-- Witness for C1 on scenario S1: one row under `customer_records`
yields exactly 2·1 `rows` inserts and one `row_partitions` insert per
active index. -/
theorem c1_witness :
    (("test_user", "test_collection") ∈ [("test_user", "test_collection")]) ∧
    (on_object [("test_user", "test_collection")] c1StateEx c1ObjEx).1.rowInserts.length
      = 2 * 1 ∧
    (on_object [("test_user", "test_collection")] c1StateEx c1ObjEx).1.partitionInserts
      = (get_index_names customerRecordsSchema).map
        (fun i => ⟨"test_collection", "customer_records", i⟩) := by
  have h := c1_write_amplification [("test_user", "test_collection")]
    c1StateEx c1ObjEx customerRecordsSchema 2
    (by decide) (by decide) (by decide) (by decide)
    (by decide)
  have h2 := h.2.1
  have h3 := h.2.2.1
  simp only [c1ObjEx] at h2
  exact ⟨by decide, by simpa using h2, h3⟩

/-! ## Schema configuration updates (`on_schema_config`, write.py 120-183)

The configuration snapshot maps a config type to a map from schema name
to a schema-definition JSON string.  `json.loads` plus the
`Field`/`RowSchema` construction either yields a `RowSchema` or raises
(malformed entries are logged and skipped); that boundary is modelled by
`SchemaJson`. -/

inductive SchemaJson where
  | ok (schema : RowSchema)
  | malformed
  deriving DecidableEq, Repr

/-- Result of `json.loads` + `Field`/`RowSchema` construction on one
configuration entry; `none` models the caught parse exception. -/
def parseSchemaJson : SchemaJson → Option RowSchema
  | .ok schema => some schema
  | .malformed => none

/-- Schemas successfully parsed from one `schemas_config` map, in
configuration order. -/
def parsedSchemas (schemas_config : List (String × SchemaJson)) :
    List (String × RowSchema) :=
  schemas_config.filterMap (fun kv =>
    (parseSchemaJson kv.2).map (fun s => (kv.1, s)))

/-- `Processor.on_schema_config` (write.py lines 120-183): replace the
schema map wholesale, then drop from the partition cache every entry
whose schema name lies in the symmetric difference of the old and new
schema-name sets.  When the config type key is absent the handler
returns early with the schema map cleared and the cache untouched. -/
def on_schema_config (config_key : String) (state : WriterState)
    (config : List (String × List (String × SchemaJson))) : WriterState :=
  let old_schema_names := state.schemas.map Prod.fst
  match config.lookup config_key with
  | none => { state with schemas := [] }
  | some schemas_config =>
      let schemas := parsedSchemas schemas_config
      let new_schema_names := schemas.map Prod.fst
      let changed_schemas :=
        old_schema_names.filter (fun n => !(new_schema_names.contains n)) ++
          new_schema_names.filter (fun n => !(old_schema_names.contains n))
      { schemas := schemas,
        registeredPartitions :=
          if changed_schemas.isEmpty then state.registeredPartitions
          else state.registeredPartitions.filter
            (fun p => !(changed_schemas.contains p.2)) }

/-- CLAIM C3 counterexample: an update that changes the definition of
schema `"s"` (its field list differs) while keeping the name `"s"`
present does not purge the cache entry `("c", "s")`, so the next write
for `("c", "s")` does not re-register partitions. -/
theorem c3_counterexample :
    on_schema_config "schema"
        ⟨[("s", ⟨"s", "", [⟨"id", "string", true, false, true⟩]⟩)],
         [("c", "s")]⟩
        [("schema",
          [("s", SchemaJson.ok
            ⟨"s", "",
             [⟨"id", "string", true, false, true⟩,
              ⟨"status", "string", false, true, false⟩]⟩)])]
      = ⟨[("s", ⟨"s", "",
            [⟨"id", "string", true, false, true⟩,
             ⟨"status", "string", false, true, false⟩]⟩)],
         [("c", "s")]⟩ := by
  decide

/-- CLAIM C3 (amended): after a schema configuration update that carries
the configured config type, every `(collection, S)` cache entry is
purged for every schema name `S` that the update added or removed (name
present on exactly one side); entries for schemas whose definition
changed but whose name persists are retained, as the counterexample
shows. -/
theorem c3_purge_added_removed (config_key : String) (state : WriterState)
    (config : List (String × List (String × SchemaJson)))
    (schemas_config : List (String × SchemaJson))
    (hm : config.lookup config_key = some schemas_config) :
    ∀ c S,
      ((S ∈ state.schemas.map Prod.fst ∧
          S ∉ (parsedSchemas schemas_config).map Prod.fst) ∨
        (S ∉ state.schemas.map Prod.fst ∧
          S ∈ (parsedSchemas schemas_config).map Prod.fst)) →
      (c, S) ∉ (on_schema_config config_key state config).registeredPartitions := by
  intro c S hS hmem
  unfold on_schema_config at hmem
  rw [hm] at hmem
  simp only at hmem
  set old_names := state.schemas.map Prod.fst with hold
  set new_names := (parsedSchemas schemas_config).map Prod.fst with hnew
  set changed := old_names.filter (fun n => !(new_names.contains n)) ++
    new_names.filter (fun n => !(old_names.contains n)) with hch
  have hSch : S ∈ changed := by
    rw [hch]
    rcases hS with ⟨h1, h2⟩ | ⟨h1, h2⟩
    · apply List.mem_append_left
      rw [List.mem_filter]
      exact ⟨h1, by simp [h2]⟩
    · apply List.mem_append_right
      rw [List.mem_filter]
      exact ⟨h2, by simp [h1]⟩
  by_cases hemp : changed.isEmpty = true
  · rw [List.isEmpty_iff] at hemp
    rw [hemp] at hSch
    simp at hSch
  · rw [if_neg hemp] at hmem
    rw [List.mem_filter] at hmem
    have h2 := hmem.2
    simp at h2
    exact h2 hSch

/-- Witness for C3 (amended): removing schema `"s"` purges `("c", "s")`
from the cache. -/
theorem c3_witness :
    ([("schema", ([] : List (String × SchemaJson)))].lookup "schema"
        = some []) ∧
    ("c", "s") ∉ (on_schema_config "schema"
        ⟨[("s", ⟨"s", "", [⟨"id", "string", true, false, true⟩]⟩)],
         [("c", "s")]⟩
        [("schema", [])]).registeredPartitions := by
  refine ⟨by decide, ?_⟩
  apply c3_purge_added_removed "schema"
    ⟨[("s", ⟨"s", "", [⟨"id", "string", true, false, true⟩]⟩)],
     [("c", "s")]⟩
    [("schema", [])] [] (by decide)
  left
  exact ⟨by decide, by decide⟩

/-! ## Row Embeddings Computer (`embeddings/row_embeddings/embeddings.py`)

`on_message` (lines 148-232) collects, per batch, the unique non-empty
index texts in a Python dict keyed by text (insertion ordered, modelled
as an association list built by the same fold), embeds each exactly once
in dict order, and emits the results in slices of `batch_size`. -/

/-- `Processor.build_text_for_embedding` (lines 143-146): space-join. -/
def build_text_for_embedding (index_value : List String) : String :=
  String.intercalate " " index_value

/-- One step of filling `texts_to_embed` (lines 183-193): skip
empty/all-empty index values; record the text with its first
`(index_name, index_value)` pair when unseen. -/
def collectStep (acc : List (String × String × List String))
    (value_map : List (String × String)) (index_name : String) :
    List (String × String × List String) :=
  let index_value := build_index_value value_map index_name
  if indexValueSkipped index_value then acc
  else
    let text := build_text_for_embedding index_value
    if (!(text == "")) && !(acc.any (fun e => e.1 == text)) then
      acc ++ [(text, index_name, index_value)]
    else acc

/-- `texts_to_embed` after the two nested loops of `on_message`
(lines 183-193): rows outer, indexes inner. -/
def collectTexts (index_names : List String)
    (values : List (List (String × String))) :
    List (String × String × List String) :=
  values.foldl (fun acc value_map =>
    index_names.foldl (fun acc index_name =>
      collectStep acc value_map index_name) acc) []

/-- Candidate produced by one (row, index) pair: `none` when the index
value is empty/all-empty or the text is empty, otherwise the
(text, index_name, index_value) triple. -/
def candOf (value_map : List (String × String)) (index_name : String) :
    Option (String × String × List String) :=
  let index_value := build_index_value value_map index_name
  if indexValueSkipped index_value then none
  else
    let text := build_text_for_embedding index_value
    if text == "" then none
    else some (text, index_name, index_value)

/-- The stream of (text, index_name, index_value) candidates in
iteration order -- rows, then indexes -- with empty/all-empty index
values and empty texts dropped, before deduplication. -/
def candidateSeq (index_names : List String)
    (values : List (List (String × String))) :
    List (String × String × List String) :=
  values.flatMap (fun value_map =>
    index_names.filterMap (candOf value_map))

/-- Keep-first deduplication step on an association list keyed by text. -/
def dedupStep (acc : List (String × String × List String))
    (e : String × String × List String) :
    List (String × String × List String) :=
  if acc.any (fun d => d.1 == e.1) then acc else acc ++ [e]

theorem collectStep_of_candOf_none
    (acc : List (String × String × List String))
    (value_map : List (String × String)) (index_name : String)
    (h : candOf value_map index_name = none) :
    collectStep acc value_map index_name = acc := by
  unfold candOf at h
  unfold collectStep
  by_cases hskip : indexValueSkipped (build_index_value value_map index_name) = true
  · simp [hskip]
  · rw [if_neg hskip] at h ⊢
    by_cases htext : (build_text_for_embedding
        (build_index_value value_map index_name) == "") = true
    · simp only [htext, Bool.not_true, Bool.false_and, Bool.false_eq_true,
        if_false]
    · rw [if_neg htext] at h
      exact absurd h (by simp)

theorem collectStep_of_candOf_some
    (acc : List (String × String × List String))
    (value_map : List (String × String)) (index_name : String)
    (e : String × String × List String)
    (h : candOf value_map index_name = some e) :
    collectStep acc value_map index_name = dedupStep acc e := by
  unfold candOf at h
  by_cases hskip : indexValueSkipped (build_index_value value_map index_name) = true
  · rw [if_pos hskip] at h
    exact absurd h (by simp)
  · rw [if_neg hskip] at h
    by_cases htext : (build_text_for_embedding
        (build_index_value value_map index_name) == "") = true
    · rw [if_pos htext] at h
      exact absurd h (by simp)
    · rw [if_neg htext] at h
      rw [Option.some_inj] at h
      unfold collectStep dedupStep
      rw [if_neg hskip]
      rw [← h]
      simp only
      have hb : (build_text_for_embedding
          (build_index_value value_map index_name) == "") = false := by
        rw [Bool.eq_false_iff]
        exact htext
      rw [hb]
      by_cases hany : (acc.any (fun d =>
          d.1 == build_text_for_embedding
            (build_index_value value_map index_name))) = true
      · simp [hany]
      · have hany2 := Bool.eq_false_iff.mpr hany
        simp [hany2]

theorem collect_inner_eq (value_map : List (String × String))
    (index_names : List String)
    (acc : List (String × String × List String)) :
    index_names.foldl (fun acc index_name =>
        collectStep acc value_map index_name) acc
      = (index_names.filterMap (candOf value_map)).foldl dedupStep acc := by
  induction index_names generalizing acc with
  | nil => rfl
  | cons i t ih =>
      simp only [List.foldl_cons, List.filterMap_cons]
      cases hc : candOf value_map i with
      | none =>
          rw [collectStep_of_candOf_none acc value_map i hc]
          exact ih acc
      | some e =>
          rw [collectStep_of_candOf_some acc value_map i e hc]
          simp only [List.foldl_cons]
          exact ih (dedupStep acc e)

theorem foldl_flatMap {α β γ : Type} (f : α → List β)
    (step : γ → β → γ) (l : List α) (acc : γ) :
    (l.flatMap f).foldl step acc =
      l.foldl (fun acc a => (f a).foldl step acc) acc := by
  induction l generalizing acc with
  | nil => rfl
  | cons a t ih => simp [List.flatMap_cons, List.foldl_append, ih]

/-- The imperative collection loop equals keep-first deduplication of
the candidate stream. -/
theorem collectTexts_eq_dedup (index_names : List String)
    (values : List (List (String × String))) :
    collectTexts index_names values =
      (candidateSeq index_names values).foldl dedupStep [] := by
  unfold collectTexts candidateSeq
  rw [foldl_flatMap]
  congr 1
  funext acc value_map
  exact collect_inner_eq value_map index_names acc

theorem mem_dedup_foldl (l : List (String × String × List String))
    (acc : List (String × String × List String))
    (t : String) (p : String × List String) :
    (t, p) ∈ l.foldl dedupStep acc ↔
      ((t, p) ∈ acc ∨
        ((∀ q, (t, q) ∉ acc) ∧
          l.find? (fun e => e.1 == t) = some (t, p))) := by
  induction l generalizing acc with
  | nil =>
      simp only [List.foldl_nil, List.find?_nil]
      constructor
      · intro h; exact Or.inl h
      · intro h
        rcases h with h | ⟨_, h⟩
        · exact h
        · exact absurd h (by simp)
  | cons e l ih =>
      simp only [List.foldl_cons]
      rw [ih]
      by_cases hany : (acc.any (fun d => d.1 == e.1)) = true
      · have hstep : dedupStep acc e = acc := by simp [dedupStep, hany]
        rw [hstep]
        rw [List.any_eq_true] at hany
        obtain ⟨d, hd, hde⟩ := hany
        rw [beq_iff_eq] at hde
        by_cases het : e.1 = t
        · have hkey : ∃ q, (t, q) ∈ acc := by
            refine ⟨d.2, ?_⟩
            have : d = (t, d.2) := by
              ext1
              · rw [hde, het]
              · rfl
            rw [← this]
            exact hd
          constructor
          · intro h
            rcases h with h | ⟨hno, _⟩
            · exact Or.inl h
            · obtain ⟨q, hq⟩ := hkey
              exact absurd hq (hno q)
          · intro h
            rcases h with h | ⟨hno, _⟩
            · exact Or.inl h
            · obtain ⟨q, hq⟩ := hkey
              exact absurd hq (hno q)
        · have hfind : (e :: l).find? (fun x => x.1 == t) =
              l.find? (fun x => x.1 == t) := by
            rw [List.find?_cons]
            have : (e.1 == t) = false := by simp [het]
            simp [this]
          rw [hfind]
      · have hstep : dedupStep acc e = acc ++ [e] := by
          simp only [dedupStep, hany, Bool.false_eq_true, if_false]
        rw [hstep]
        have hnokey : ∀ d ∈ acc, d.1 ≠ e.1 := by
          intro d hd hde
          apply hany
          rw [List.any_eq_true]
          exact ⟨d, hd, by simp [hde]⟩
        by_cases het : e.1 = t
        · have hfind : (e :: l).find? (fun x => x.1 == t) = some e := by
            rw [List.find?_cons]
            simp [het]
          rw [hfind]
          have haccnot : (t, p) ∉ acc := by
            intro h
            exact hnokey (t, p) h (by rw [het])
          constructor
          · intro h
            rcases h with h | ⟨hno, hf⟩
            · rw [List.mem_append] at h
              rcases h with h | h
              · exact absurd h haccnot
              · right
                refine ⟨fun q hq => hnokey (t, q) hq (by rw [het]), ?_⟩
                simp only [List.mem_singleton] at h
                rw [← h]
            · obtain ⟨q2, hq2⟩ : ∃ q2, (t, q2) ∈ acc ++ [e] := by
                refine ⟨e.2, ?_⟩
                rw [List.mem_append]
                right
                simp only [List.mem_singleton]
                ext1
                · rw [het]
                · rfl
              exact absurd hq2 (hno q2)
          · intro h
            rcases h with h | ⟨hno, hf⟩
            · exact absurd h haccnot
            · left
              rw [List.mem_append]
              right
              simp only [List.mem_singleton]
              rw [Option.some_inj] at hf
              rw [← hf]
        · have hfind : (e :: l).find? (fun x => x.1 == t) =
              l.find? (fun x => x.1 == t) := by
            rw [List.find?_cons]
            have : (e.1 == t) = false := by simp [het]
            simp [this]
          rw [hfind]
          have hmemiff : (t, p) ∈ acc ++ [e] ↔ (t, p) ∈ acc := by
            rw [List.mem_append]
            constructor
            · intro h
              rcases h with h | h
              · exact h
              · simp only [List.mem_singleton] at h
                exact absurd (congrArg Prod.fst h).symm het
            · exact Or.inl
          have hkeyiff : (∀ q, (t, q) ∉ acc ++ [e]) ↔ (∀ q, (t, q) ∉ acc) := by
            constructor
            · intro h q hq
              exact h q (List.mem_append.mpr (Or.inl hq))
            · intro h q hq
              rw [List.mem_append] at hq
              rcases hq with hq | hq
              · exact h q hq
              · simp only [List.mem_singleton] at hq
                exact het ((congrArg Prod.fst hq).symm)
          rw [hmemiff, hkeyiff]

theorem nodup_dedup_foldl (l : List (String × String × List String))
    (acc : List (String × String × List String))
    (h : (acc.map Prod.fst).Nodup) :
    (((l.foldl dedupStep acc).map Prod.fst)).Nodup := by
  induction l generalizing acc with
  | nil => exact h
  | cons e l ih =>
      simp only [List.foldl_cons]
      apply ih
      by_cases hany : (acc.any (fun d => d.1 == e.1)) = true
      · simp [dedupStep, hany, h]
      · have hstep : dedupStep acc e = acc ++ [e] := by
          simp only [dedupStep, hany, Bool.false_eq_true, if_false]
        rw [hstep, List.map_append, List.nodup_append]
        refine ⟨h, List.nodup_singleton _, ?_⟩
        intro a ha hb
        simp only [List.map_cons, List.map_nil, List.mem_singleton] at hb
        apply hany
        rw [List.any_eq_true]
        obtain ⟨d, hd, hda⟩ := List.mem_map.mp ha
        exact ⟨d, hd, by simp [hda, hb]⟩

/-- CLAIM C5: within one batch, the collected text map has pairwise
distinct texts (each distinct text is embedded exactly once, since the
code embeds once per entry of `texts_to_embed`), and a pair
`(index_name, index_value)` is recorded for text `t` exactly when it is
the first candidate for `t` in the stream ordered by rows then indexes,
from which empty/all-empty index values were dropped before
deduplication. -/
theorem c5_dedup_first (index_names : List String)
    (values : List (List (String × String))) :
    ((collectTexts index_names values).map Prod.fst).Nodup ∧
    ∀ t p, (t, p) ∈ collectTexts index_names values ↔
      (candidateSeq index_names values).find? (fun e => e.1 == t)
        = some (t, p) := by
  constructor
  · rw [collectTexts_eq_dedup]
    exact nodup_dedup_foldl _ [] (by simp)
  · intro t p
    rw [collectTexts_eq_dedup, mem_dedup_foldl]
    constructor
    · intro h
      rcases h with h | ⟨_, h⟩
      · exact absurd h (by simp)
      · exact h
    · intro h
      exact Or.inr ⟨fun q => by simp, h⟩

/-- Witness for C5: two rows sharing the email text `"a@b"` produce
pairwise distinct collected texts, and the duplicate text maps to its
first occurrence. -/
theorem c5_witness :
    ((collectTexts ["customer_id", "email"]
        [[("customer_id", "C1"), ("email", "a@b")],
         [("customer_id", "C2"), ("email", "a@b")]]).map Prod.fst).Nodup ∧
    ("a@b", ("email", ["a@b"])) ∈ collectTexts ["customer_id", "email"]
        [[("customer_id", "C1"), ("email", "a@b")],
         [("customer_id", "C2"), ("email", "a@b")]] := by
  have h := c5_dedup_first ["customer_id", "email"]
    [[("customer_id", "C1"), ("email", "a@b")],
     [("customer_id", "C2"), ("email", "a@b")]]
  exact ⟨h.1, (h.2 "a@b" ("email", ["a@b"])).mpr (by decide)⟩

/-! ## Batched emission (`on_message` lines 215-223)

`for i in range(0, len(embeddings_list), self.batch_size)` slices the
computed embeddings into consecutive chunks, one output message each.
Vector components are modelled as rationals; nothing in the embedded
code computes with them. -/

structure RowIndexEmbedding where
  index_name : String
  index_value : List String
  text : String
  vectors : List (List ℚ)
  deriving DecidableEq, Repr

structure RowEmbeddings where
  metadata : Metadata
  schema_name : String
  embeddings : List RowIndexEmbedding
  deriving DecidableEq, Repr

/-- The embeddings computed from the collected texts, in dict order:
`RowIndexEmbedding(index_name, index_value, text, vectors)` with
`vectors = embed(text)` (lines 200-213); `embedFn` is the external
embeddings service. -/
def embeddingsListOf (embedFn : String → List (List ℚ))
    (texts_to_embed : List (String × String × List String)) :
    List RowIndexEmbedding :=
  texts_to_embed.map (fun e => ⟨e.2.1, e.2.2, e.1, embedFn e.1⟩)

/-- Python `l[i:i+bs]` slicing over `range(0, len(l), bs)` for `bs ≥ 1`.
The head is peeled so the recursion is structurally decreasing; for
`bs = 0` Python raises ValueError, which is outside every claim. -/
def batchChunks {α : Type} (bs : ℕ) : List α → List (List α)
  | [] => []
  | x :: xs => (x :: xs.take (bs - 1)) :: batchChunks bs (xs.drop (bs - 1))
  termination_by l => l.length
  decreasing_by
    simp only [List.length_cons, List.length_drop]
    omega

/-- The batch loop of `on_message` (lines 216-223): one `RowEmbeddings`
message per chunk, in send order. -/
def emitBatches (batch_size : ℕ) (metadata : Metadata)
    (schema_name : String) (embeddings_list : List RowIndexEmbedding) :
    List RowEmbeddings :=
  (batchChunks batch_size embeddings_list).map
    (fun batch => ⟨metadata, schema_name, batch⟩)

/-- Default `batch_size` of the row embeddings processor. -/
def default_batch_size : ℕ := 10

theorem batchChunks_nil {α : Type} (bs : ℕ) :
    batchChunks bs ([] : List α) = [] := by
  rw [batchChunks]

theorem flatten_batchChunks {α : Type} (bs : ℕ) :
    ∀ (n : ℕ) (l : List α), l.length ≤ n →
      (batchChunks bs l).flatten = l := by
  intro n
  induction n with
  | zero =>
      intro l h
      rw [Nat.le_zero, List.length_eq_zero] at h
      rw [h, batchChunks_nil]
      rfl
  | succ n ih =>
      intro l h
      cases l with
      | nil =>
          rw [batchChunks_nil]
          rfl
      | cons x xs =>
          have hlen : (xs.drop (bs - 1)).length ≤ n := by
            simp only [List.length_drop]
            simp only [List.length_cons] at h
            omega
          rw [batchChunks]
          rw [List.flatten_cons]
          rw [ih (xs.drop (bs - 1)) hlen]
          rw [List.cons_append, List.take_append_drop]

theorem length_mem_batchChunks {α : Type} (bs : ℕ) (hbs : 0 < bs) :
    ∀ (n : ℕ) (l : List α), l.length ≤ n →
      ∀ c ∈ batchChunks bs l, c.length ≤ bs := by
  intro n
  induction n with
  | zero =>
      intro l h c hc
      rw [Nat.le_zero, List.length_eq_zero] at h
      rw [h] at hc
      exact absurd hc (by simp [batchChunks_nil])
  | succ n ih =>
      intro l h c hc
      cases l with
      | nil => exact absurd hc (by simp [batchChunks_nil])
      | cons x xs =>
          have hlen : (xs.drop (bs - 1)).length ≤ n := by
            simp only [List.length_drop]
            simp only [List.length_cons] at h
            omega
          rw [batchChunks] at hc
          rcases List.mem_cons.mp hc with rfl | hc
          · simp only [List.length_cons]
            have := List.length_take_le (bs - 1) xs
            omega
          · exact ih (xs.drop (bs - 1)) hlen c hc

/-- CLAIM C6: with a positive `batch_size`, every emitted `RowEmbeddings`
message carries at most `batch_size` embeddings, and concatenating the
emitted messages in send order recovers the computed embeddings list in
its original order. -/
theorem c6_batching (batch_size : ℕ) (metadata : Metadata)
    (schema_name : String) (embeddings_list : List RowIndexEmbedding)
    (hbs : 0 < batch_size) :
    (∀ m ∈ emitBatches batch_size metadata schema_name embeddings_list,
      m.embeddings.length ≤ batch_size) ∧
    (emitBatches batch_size metadata schema_name
      embeddings_list).flatMap RowEmbeddings.embeddings = embeddings_list := by
  constructor
  · intro m hm
    obtain ⟨c, hc, rfl⟩ := List.mem_map.mp hm
    exact length_mem_batchChunks batch_size hbs embeddings_list.length
      embeddings_list (le_refl _) c hc
  · unfold emitBatches
    rw [List.flatMap_def, List.map_map]
    have hmap : (batchChunks batch_size embeddings_list).map
        (RowEmbeddings.embeddings ∘ fun batch =>
          (⟨metadata, schema_name, batch⟩ : RowEmbeddings))
        = batchChunks batch_size embeddings_list := by
      apply map_fix_of_fix
      intro c _
      rfl
    rw [hmap]
    exact flatten_batchChunks batch_size embeddings_list.length
      embeddings_list (le_refl _)

/-- Witness for C6 at `batch_size = 2` and three embeddings: chunks of
at most two, concatenation restores the list. -/
theorem c6_witness :
    (0 < 2) ∧
    (∀ m ∈ emitBatches 2 ⟨"d", "u", "c", ""⟩ "s"
        [⟨"i1", ["a"], "a", []⟩, ⟨"i2", ["b"], "b", []⟩,
         ⟨"i3", ["c"], "c", []⟩],
      m.embeddings.length ≤ 2) ∧
    (emitBatches 2 ⟨"d", "u", "c", ""⟩ "s"
        [⟨"i1", ["a"], "a", []⟩, ⟨"i2", ["b"], "b", []⟩,
         ⟨"i3", ["c"], "c", []⟩]).flatMap RowEmbeddings.embeddings
      = [⟨"i1", ["a"], "a", []⟩, ⟨"i2", ["b"], "b", []⟩,
         ⟨"i3", ["c"], "c", []⟩] := by
  have h := c6_batching 2 ⟨"d", "u", "c", ""⟩ "s"
    [⟨"i1", ["a"], "a", []⟩, ⟨"i2", ["b"], "b", []⟩, ⟨"i3", ["c"], "c", []⟩]
    (by decide)
  exact ⟨by decide, h.1, h.2⟩

/-! ## Row Embeddings Writer (`storage/row_embeddings/qdrant/write.py`)

`on_embeddings` (lines 108-170) walks the embeddings of one message and
their vectors.  The Qdrant collection name is held in the local
`qdrant_collection`, initialized to `None` and assigned on the first
vector only.  Executed Qdrant calls are reified as `QdrantEffect`
values; `uuid.uuid4()` point IDs are modelled as a fresh counter. -/

inductive QdrantEffect where
  | create (collection_name : String) (size : ℕ) (distance : String)
  | upsert (collection_name : String) (point_id : ℕ) (vector : List ℚ)
      (index_name : String) (index_value : List String) (text : String)
  deriving DecidableEq, Repr

/-- `Processor.get_collection_name` (lines 79-86). -/
def get_collection_name (user collection schema_name : String)
    (dimension : ℕ) : String :=
  "rows_" ++ sanitize_name user ++ "_" ++ sanitize_name collection ++ "_" ++
    sanitize_name schema_name ++ "_" ++ toString dimension

/-- `Processor.ensure_collection` (lines 88-106): skip when cached;
otherwise create with cosine distance when the store lacks it, and cache
the name either way.  Returns the emitted effects and the new cache. -/
def ensure_collection (created existing : List String)
    (collection_name : String) (dimension : ℕ) :
    List QdrantEffect × List String :=
  if collection_name ∈ created then ([], created)
  else
    ((if collection_name ∈ existing then []
      else [QdrantEffect.create collection_name dimension "Cosine"]),
     collection_name :: created)

structure QdrantLoopState where
  qdrant_collection : Option String
  created : List String
  effects : List QdrantEffect
  next_id : ℕ
  deriving DecidableEq, Repr

/-- Body of the `for vector in row_emb.vectors` loop (lines 143-168):
on the first vector the collection name is computed from that vector's
dimension and ensured; every vector is then upserted into the current
`qdrant_collection` with payload `{index_name, index_value, text}` and a
fresh point ID. -/
def processVector (existing : List String)
    (user collection schema_name : String) (row_emb : RowIndexEmbedding)
    (st : QdrantLoopState) (vector : List ℚ) : QdrantLoopState :=
  let dimension := vector.length
  match st.qdrant_collection with
  | some name =>
      ⟨some name, st.created,
       st.effects ++ [QdrantEffect.upsert name st.next_id vector
         row_emb.index_name row_emb.index_value row_emb.text],
       st.next_id + 1⟩
  | none =>
      let name := get_collection_name user collection schema_name dimension
      let ec := ensure_collection st.created existing name dimension
      ⟨some name, ec.2,
       st.effects ++ ec.1 ++ [QdrantEffect.upsert name st.next_id vector
         row_emb.index_name row_emb.index_value row_emb.text],
       st.next_id + 1⟩

/-- `Processor.on_embeddings` (lines 108-170).  `knownCollections` is
the external collection-config registry (spec-modelled, as for the row
writer); `created` is the in-process collection cache and `existing` the
collections present in the Qdrant store. -/
def on_embeddings (knownCollections : List (String × String))
    (created existing : List String) (msg : RowEmbeddings) :
    List QdrantEffect :=
  if (msg.metadata.user, msg.metadata.collection) ∉ knownCollections then []
  else
    (msg.embeddings.foldl
      (fun (st : QdrantLoopState) (row_emb : RowIndexEmbedding) =>
        if row_emb.vectors.isEmpty then st
        else row_emb.vectors.foldl
          (processVector existing msg.metadata.user msg.metadata.collection
            msg.schema_name row_emb) st)
      ⟨none, created, [], 0⟩).effects

/-- The (embedding, vector) pairs of a message in processing order. -/
def flatPairs (embeddings : List RowIndexEmbedding) :
    List (RowIndexEmbedding × List ℚ) :=
  embeddings.flatMap (fun e => e.vectors.map (fun v => (e, v)))

/-- Upsert effects for a run of (embedding, vector) pairs into one
collection, with consecutive point IDs starting at `k`. -/
def upsertsFrom (name : String) (k : ℕ) :
    List (RowIndexEmbedding × List ℚ) → List QdrantEffect
  | [] => []
  | (e, v) :: rest =>
      QdrantEffect.upsert name k v e.index_name e.index_value e.text ::
        upsertsFrom name (k + 1) rest

theorem foldl_nested_eq_flat (existing : List String)
    (user collection schema_name : String)
    (embeddings : List RowIndexEmbedding) (st : QdrantLoopState) :
    embeddings.foldl
      (fun (st : QdrantLoopState) (row_emb : RowIndexEmbedding) =>
        if row_emb.vectors.isEmpty then st
        else row_emb.vectors.foldl
          (processVector existing user collection schema_name row_emb) st) st
      = (flatPairs embeddings).foldl
          (fun st p => processVector existing user collection schema_name
            p.1 st p.2) st := by
  unfold flatPairs
  rw [foldl_flatMap]
  congr 1
  funext st e
  rw [List.foldl_map]
  by_cases hv : e.vectors.isEmpty = true
  · rw [if_pos hv]
    rw [List.isEmpty_iff] at hv
    rw [hv]
    rfl
  · rw [if_neg hv]

theorem steady_foldl (existing : List String)
    (user collection schema_name name : String)
    (flat : List (RowIndexEmbedding × List ℚ)) :
    ∀ (created2 : List String) (fx : List QdrantEffect) (k : ℕ),
      flat.foldl (fun st p => processVector existing user collection
          schema_name p.1 st p.2) ⟨some name, created2, fx, k⟩
        = ⟨some name, created2, fx ++ upsertsFrom name k flat,
           k + flat.length⟩ := by
  induction flat with
  | nil =>
      intro created2 fx k
      simp [upsertsFrom]
  | cons p rest ih =>
      intro created2 fx k
      rcases p with ⟨e, v⟩
      rw [List.foldl_cons]
      show rest.foldl _ (processVector existing user collection schema_name
        e ⟨some name, created2, fx, k⟩ v) = _
      rw [show processVector existing user collection schema_name e
          ⟨some name, created2, fx, k⟩ v
        = ⟨some name, created2,
           fx ++ [QdrantEffect.upsert name k v e.index_name e.index_value
             e.text], k + 1⟩ from rfl]
      rw [ih created2 _ (k + 1)]
      simp only [upsertsFrom, List.length_cons]
      have h1 : fx ++ [QdrantEffect.upsert name k v e.index_name
          e.index_value e.text] ++ upsertsFrom name (k + 1) rest
        = fx ++ QdrantEffect.upsert name k v e.index_name e.index_value
            e.text :: upsertsFrom name (k + 1) rest := by
        rw [List.append_assoc]
        rfl
      have h2 : k + 1 + rest.length = k + (rest.length + 1) := by omega
      rw [h1, h2]

/-- CLAIM C4 counterexample: a message carrying vectors of dimensions 2
and 3 writes BOTH into the collection named for dimension 2 (computed
once, from the first vector); the dimension-3 vector is not upserted
into `rows_u_c_s_3` as the claim requires. -/
theorem c4_counterexample :
    on_embeddings [("u", "c")] [] []
        ⟨⟨"d", "u", "c", ""⟩, "s",
         [⟨"idx", ["x"], "x", [[0, 0], [0, 0, 0]]⟩]⟩
      = [QdrantEffect.create "rows_u_c_s_2" 2 "Cosine",
         QdrantEffect.upsert "rows_u_c_s_2" 0 [0, 0] "idx" ["x"] "x",
         QdrantEffect.upsert "rows_u_c_s_2" 1 [0, 0, 0] "idx" ["x"] "x"] ∧
      ("rows_u_c_s_2" : String) ≠ "rows_u_c_s_3" := by
  constructor
  · decide
  · decide

/-- CLAIM C4 (amended): for an accepted `RowEmbeddings` message with at
least one vector, the collection name is computed once, from the
dimension of the first vector of the first embedding with non-empty
vectors, and ensured (created with that first dimension and cosine
distance when absent); every vector of the message -- whatever its own
dimension -- is then upserted into that one collection with payload
`{index_name, index_value, text}` and a fresh unique point ID. -/
theorem c4_collection_from_first_vector
    (knownCollections : List (String × String))
    (created existing : List String) (msg : RowEmbeddings)
    (e0 : RowIndexEmbedding) (v0 : List ℚ)
    (rest : List (RowIndexEmbedding × List ℚ))
    (hacc : (msg.metadata.user, msg.metadata.collection) ∈ knownCollections)
    (hflat : flatPairs msg.embeddings = (e0, v0) :: rest) :
    on_embeddings knownCollections created existing msg
      = (ensure_collection created existing
          (get_collection_name msg.metadata.user msg.metadata.collection
            msg.schema_name v0.length) v0.length).1
        ++ upsertsFrom (get_collection_name msg.metadata.user
            msg.metadata.collection msg.schema_name v0.length) 0
            ((e0, v0) :: rest) := by
  unfold on_embeddings
  rw [if_neg (by simp only [not_not]; exact hacc)]
  rw [foldl_nested_eq_flat, hflat]
  rw [List.foldl_cons]
  show (rest.foldl _ (processVector existing msg.metadata.user
    msg.metadata.collection msg.schema_name e0 ⟨none, created, [], 0⟩
    v0)).effects = _
  rw [show processVector existing msg.metadata.user msg.metadata.collection
      msg.schema_name e0 ⟨none, created, [], 0⟩ v0
    = ⟨some (get_collection_name msg.metadata.user msg.metadata.collection
         msg.schema_name v0.length),
       (ensure_collection created existing
         (get_collection_name msg.metadata.user msg.metadata.collection
           msg.schema_name v0.length) v0.length).2,
       [] ++ (ensure_collection created existing
         (get_collection_name msg.metadata.user msg.metadata.collection
           msg.schema_name v0.length) v0.length).1
          ++ [QdrantEffect.upsert (get_collection_name msg.metadata.user
            msg.metadata.collection msg.schema_name v0.length) 0 v0
            e0.index_name e0.index_value e0.text], 1⟩ from rfl]
  rw [steady_foldl]
  simp only [upsertsFrom, List.nil_append]
  rw [List.append_assoc]
  rfl

/-- Witness for C4 (amended) on a message with two dimension-2 vectors
against an empty store: one create effect and two upserts into the
dimension-2 collection. -/
theorem c4_witness :
    (("u", "c") ∈ [("u", "c")]) ∧
    (flatPairs [⟨"idx", ["x"], "x", [[1, 2], [3, 4]]⟩]
      = [(⟨"idx", ["x"], "x", [[1, 2], [3, 4]]⟩, [1, 2]),
         (⟨"idx", ["x"], "x", [[1, 2], [3, 4]]⟩, [3, 4])]) ∧
    on_embeddings [("u", "c")] [] []
        ⟨⟨"d", "u", "c", ""⟩, "s", [⟨"idx", ["x"], "x", [[1, 2], [3, 4]]⟩]⟩
      = (ensure_collection [] [] (get_collection_name "u" "c" "s" 2) 2).1
        ++ upsertsFrom (get_collection_name "u" "c" "s" 2) 0
            [(⟨"idx", ["x"], "x", [[1, 2], [3, 4]]⟩, [1, 2]),
             (⟨"idx", ["x"], "x", [[1, 2], [3, 4]]⟩, [3, 4])] := by
  refine ⟨by decide, by rfl, ?_⟩
  exact c4_collection_from_first_vector [("u", "c")] [] []
    ⟨⟨"d", "u", "c", ""⟩, "s", [⟨"idx", ["x"], "x", [[1, 2], [3, 4]]⟩]⟩
    ⟨"idx", ["x"], "x", [[1, 2], [3, 4]]⟩ [1, 2]
    [(⟨"idx", ["x"], "x", [[1, 2], [3, 4]]⟩, [3, 4])]
    (by decide) (by rfl)

/-! ## GraphQL filter values and the post-filter predicate

Normalized filters (the output of `parse_where_clause` in
`query/graphql/filters.py`) map `field` or `field_op` keys to GraphQL
scalar values or lists of scalars.  `FilterValue.vnull` models Python
`None` (skipped by `_matches_filters`); integers model the numeric
scalars of `IntFilter`.  Python `str()` and `float()` on these values
are modelled by `pyStr` and `floatOfValue`; `pyFloat?` models `float()`
on plain decimal literals, the only strings the embedded code feeds it
in the claims below. -/

inductive FilterScalar where
  | s (v : String)
  | i (n : ℤ)
  deriving DecidableEq, Repr

inductive FilterValue where
  | vnull
  | scalar (v : FilterScalar)
  | list (vs : List FilterScalar)
  deriving DecidableEq, Repr

def pyStrScalar : FilterScalar → String
  | .s v => v
  | .i n => toString n

/-- Python `repr` of a scalar, used only inside `str` of a list. -/
def pyReprScalar : FilterScalar → String
  | .s w => String.mk (Char.ofNat 39 :: (w.data ++ [Char.ofNat 39]))
  | .i n => toString n

/-- Python `str()` on a filter value. -/
def pyStr : FilterValue → String
  | .vnull => "None"
  | .scalar v => pyStrScalar v
  | .list vs => "[" ++ String.intercalate ", " (vs.map pyReprScalar) ++ "]"

def isDigitChar (c : Char) : Bool :=
  48 ≤ c.toNat && c.toNat ≤ 57

def natOfDigits (l : List Char) : ℕ :=
  l.foldl (fun acc c => acc * 10 + (c.toNat - 48)) 0

/-- Python `float()` on a plain decimal literal: optional sign, digits,
optional fractional part.  Returns `none` where `float()` raises
ValueError (in particular on the empty string, a bare sign or dot, and
any non-numeric text). -/
def pyFloat? (s : String) : Option ℚ :=
  let signed : Bool × List Char :=
    match s.data with
    | c :: t =>
        if c == '-' then (true, t)
        else if c == '+' then (false, t) else (false, s.data)
    | [] => (false, [])
  let ip := signed.2.takeWhile isDigitChar
  let rest := signed.2.dropWhile isDigitChar
  let sgn : ℚ := if signed.1 then -1 else 1
  match rest with
  | [] => if ip.isEmpty then none else some (sgn * (natOfDigits ip : ℚ))
  | c :: fp =>
      if c == '.' ∧ fp.all isDigitChar ∧ ¬ (ip.isEmpty ∧ fp.isEmpty) then
        some (sgn * ((natOfDigits ip : ℚ)
          + (natOfDigits fp : ℚ) / (10 : ℚ) ^ fp.length))
      else none

/-- Python `float()` on a filter value; `none` models the raised
TypeError/ValueError that `_matches_filters` catches. -/
def floatOfValue : FilterValue → Option ℚ
  | .vnull => none
  | .scalar (.s v) => pyFloat? v
  | .scalar (.i n) => some (n : ℚ)
  | .list _ => none

/-- Iterating a filter value in `[str(v) for v in filter_value]`:
lists yield their elements, strings yield their characters, and
non-iterables raise (modelled `none`). -/
def iterStrs : FilterValue → Option (List String)
  | .list vs => some (vs.map pyStrScalar)
  | .scalar (.s w) => some (w.data.map (fun c => String.mk [c]))
  | .scalar (.i _) => none
  | .vnull => none

/-- Python `"sub" in "string"` substring test on character lists. -/
def containsSub (hay pat : List Char) : Bool :=
  match hay with
  | [] => pat.isEmpty
  | c :: t => pat.isPrefixOf (c :: t) || containsSub t pat

/-- `filter_key.rsplit('_', 1)` guarded by `'_' in filter_key`
(service.py lines 342-343): `none` when the key has no underscore,
otherwise the parts around the last underscore. -/
def rsplitUnderscore (key : String) : Option (String × String) :=
  let rev := key.data.reverse
  let sufRev := rev.takeWhile (fun c => !(c == '_'))
  let rest := rev.dropWhile (fun c => !(c == '_'))
  match rest with
  | [] => none
  | _ :: preRev => some (String.mk preRev.reverse, String.mk sufRev.reverse)

/-- Operator suffixes recognized by `_matches_filters` (line 344). -/
def knownOps : List String :=
  ["gt", "gte", "lt", "lte", "contains", "in"]

/-- Key parsing of `_matches_filters` (service.py lines 341-352): split
on the last underscore; if the suffix is a known operator use it,
otherwise the whole key is the field name under equality. -/
def parseFilterField (filter_key : String) : String × String :=
  match rsplitUnderscore filter_key with
  | some ps => if ps.2 ∈ knownOps then (ps.1, ps.2) else (filter_key, "eq")
  | none => (filter_key, "eq")

/-- Operator evaluation of `_matches_filters` (service.py lines
358-382), wrapped by `try/except` that turns parse failures into a
failed predicate.  Returns `true` when the row passes this condition. -/
def evalOp (operator : String) (row_value : String)
    (filter_value : FilterValue) : Bool :=
  if operator == "eq" then row_value == pyStr filter_value
  else if operator == "gt" then
    match pyFloat? row_value, floatOfValue filter_value with
    | some a, some b => decide (b < a)
    | _, _ => false
  else if operator == "gte" then
    match pyFloat? row_value, floatOfValue filter_value with
    | some a, some b => decide (b ≤ a)
    | _, _ => false
  else if operator == "lt" then
    match pyFloat? row_value, floatOfValue filter_value with
    | some a, some b => decide (a < b)
    | _, _ => false
  else if operator == "lte" then
    match pyFloat? row_value, floatOfValue filter_value with
    | some a, some b => decide (a ≤ b)
    | _, _ => false
  else if operator == "contains" then
    containsSub row_value.data (pyStr filter_value).data
  else if operator == "in" then
    match iterStrs filter_value with
    | some l => decide (row_value ∈ l)
    | none => false
  else true

/-- `Processor._matches_filters` (service.py lines 330-384); the
`row_schema` parameter of the source is unused there and omitted.  A row
passes iff every non-None filter entry passes: parse the key, require
the field present in the row, and evaluate the operator. -/
def matchesFilters (row_dict : List (String × String))
    (filters : List (String × FilterValue)) : Bool :=
  filters.all (fun kv =>
    if kv.2 == FilterValue.vnull then true
    else
      match row_dict.lookup (parseFilterField kv.1).1 with
      | none => false
      | some row_value => evalOp (parseFilterField kv.1).2 row_value kv.2)

/-! ## Cassandra row query planning (`query/rows/cassandra/service.py`)

The unified `rows` table is a list of `StoredRow`; the two SELECT
shapes of `query_cassandra` are reified as `CassQuery` values. -/

structure StoredRow where
  collection : String
  schema_name : String
  index_name : String
  index_value : List String
  data : List (String × String)
  source : String
  deriving DecidableEq, Repr

inductive CassQuery where
  | direct (keyspace collection schema_name index_name : String)
      (index_value : List String) (limit : ℕ)
  | scanFiltering (keyspace collection schema_name index_name : String)
  deriving DecidableEq, Repr

inductive SortDirection where
  | asc
  | desc
  deriving DecidableEq, Repr

/-- `Processor.find_matching_index` (service.py lines 196-217): the
first active index whose name is a key of the filters, with value
`[str(filters[index_name])]`. -/
def find_matching_index (schema : RowSchema)
    (filters : List (String × FilterValue)) :
    Option (String × List String) :=
  (get_index_names schema).findSome? (fun index_name =>
    match filters.lookup index_name with
    | some value => some (index_name, [pyStr value])
    | none => none)

/-- The scan loop of the fallback path (service.py lines 303-311):
post-filter each row, stop once `limit` (when truthy) rows matched. -/
def scanLoop (filters : List (String × FilterValue)) (limit : ℕ) :
    List StoredRow → List (List (String × String)) →
      List (List (String × String))
  | [], acc => acc
  | r :: t, acc =>
      if matchesFilters r.data filters then
        if limit ≠ 0 ∧ acc.length + 1 ≥ limit then acc ++ [r.data]
        else scanLoop filters limit t (acc ++ [r.data])
      else scanLoop filters limit t acc

/-- In-process sort (service.py lines 317-326): when `order_by` is
truthy and results are non-empty, stable-sort by the named column with
`""` for missing values, descending when requested. -/
def sortResults (order_by : Option String) (reverse_order : Bool)
    (results : List (List (String × String))) :
    List (List (String × String)) :=
  match order_by with
  | none => results
  | some ob =>
      if ob == "" || results.isEmpty then results
      else if reverse_order then
        results.mergeSort (fun a b =>
          decide ((b.lookup ob).getD "" ≤ (a.lookup ob).getD ""))
      else
        results.mergeSort (fun a b =>
          decide ((a.lookup ob).getD "" ≤ (b.lookup ob).getD ""))

/-- `Processor.query_cassandra` (service.py lines 219-328) against a
store modelled as a row list: returns the executed SELECT (when any)
and the produced row dictionaries. -/
def query_cassandra (db : List StoredRow)
    (user collection schema_name : String) (row_schema : RowSchema)
    (filters : List (String × FilterValue)) (limit : ℕ)
    (order_by : Option String) (direction : Option SortDirection) :
    Option CassQuery × List (List (String × String)) :=
  let safe_keyspace := sanitize_name user
  let reverse_order := direction == some SortDirection.desc
  match find_matching_index row_schema filters with
  | some im =>
      let rows := db.filter (fun r =>
        r.collection == collection && r.schema_name == schema_name &&
          r.index_name == im.1 && r.index_value == im.2)
      let rows := if limit ≠ 0 then rows.take limit else rows
      (some (CassQuery.direct safe_keyspace collection schema_name
         im.1 im.2 limit),
       sortResults order_by reverse_order (rows.map (fun r => r.data)))
  | none =>
      match get_index_names row_schema with
      | [] => (none, [])
      | primary_index :: _ =>
          let rows := db.filter (fun r =>
            r.collection == collection && r.schema_name == schema_name &&
              r.index_name == primary_index)
          (some (CassQuery.scanFiltering safe_keyspace collection
             schema_name primary_index),
           sortResults order_by reverse_order (scanLoop filters limit rows []))

def planIsDirect : Option CassQuery → Bool
  | some (CassQuery.direct _ _ _ _ _ _) => true
  | _ => false

theorem lookup_isSome_iff_mem_keys {α : Type} (l : List (String × α))
    (k : String) :
    (l.lookup k).isSome = true ↔ k ∈ l.map Prod.fst := by
  induction l with
  | nil => simp [List.lookup]
  | cons a t ih =>
      rcases a with ⟨ka, va⟩
      by_cases hk : k = ka
      · subst hk
        simp [List.lookup]
      · have hbeq : (k == ka) = false := by simp [hk]
        simp [List.lookup, hbeq, hk, ih]

theorem findSome?_of_find? {α β : Type} (g : α → Option β) (p : α → Bool)
    (hp : ∀ a, p a = (g a).isSome) (l : List α) (a : α)
    (h : l.find? p = some a) :
    l.findSome? g = g a := by
  induction l with
  | nil => exact absurd h (by simp)
  | cons x t ih =>
      rw [List.find?_cons] at h
      rw [List.findSome?_cons]
      cases hpx : p x with
      | true =>
          rw [hpx] at h
          rw [Option.some_inj] at h
          subst h
          have hsome : (g x).isSome = true := by rw [← hp]; exact hpx
          cases hg : g x with
          | none => rw [hg] at hsome; exact absurd hsome (by simp)
          | some b => rfl
      | false =>
          rw [hpx] at h
          have hnone : g x = none := by
            have := hp x
            rw [hpx] at this
            cases hg : g x with
            | none => rfl
            | some b => rw [hg] at this; exact absurd this.symm (by simp)
          rw [hnone]
          exact ih h

theorem scanLoop_sound (filters : List (String × FilterValue)) (limit : ℕ) :
    ∀ (rows : List StoredRow) (acc : List (List (String × String))),
      (∀ r ∈ acc, matchesFilters r filters = true) →
      ∀ r ∈ scanLoop filters limit rows acc,
        matchesFilters r filters = true := by
  intro rows
  induction rows with
  | nil =>
      intro acc hacc r hr
      exact hacc r hr
  | cons x t ih =>
      intro acc hacc r hr
      rw [scanLoop] at hr
      by_cases hm : matchesFilters x.data filters = true
      · rw [if_pos hm] at hr
        have haccx : ∀ s ∈ acc ++ [x.data], matchesFilters s filters = true := by
          intro s hs
          rw [List.mem_append] at hs
          rcases hs with hs | hs
          · exact hacc s hs
          · simp only [List.mem_singleton] at hs
            rw [hs]
            exact hm
        by_cases hl : limit ≠ 0 ∧ acc.length + 1 ≥ limit
        · rw [if_pos hl] at hr
          exact haccx r hr
        · rw [if_neg hl] at hr
          exact ih (acc ++ [x.data]) haccx r hr
      · rw [if_neg hm] at hr
        exact ih acc hacc r hr

/-- CLAIM C2: the planner issues a direct index read iff some filter key
is exactly the name of a primary/indexed field (equality entry, no
operator suffix); the chosen index is the first such field in
schema-field order and the read carries
`index_value = [str(filters[key])]`; otherwise, with at least one active
index, it scans the first active index with ALLOW FILTERING and every
returned row passes the in-process post-filter. -/
theorem c2_query_planning (db : List StoredRow)
    (user collection schema_name : String) (row_schema : RowSchema)
    (filters : List (String × FilterValue)) (limit : ℕ) :
    (planIsDirect (query_cassandra db user collection schema_name
        row_schema filters limit none none).1 = true ↔
      ∃ k, k ∈ get_index_names row_schema ∧
        (filters.lookup k).isSome = true) ∧
    (∀ i val,
      (get_index_names row_schema).find?
          (fun n => (filters.lookup n).isSome) = some i →
      filters.lookup i = some val →
      (query_cassandra db user collection schema_name row_schema filters
          limit none none).1
        = some (CassQuery.direct (sanitize_name user) collection
            schema_name i [pyStr val] limit)) ∧
    (∀ i1 restIdx,
      (∀ k ∈ get_index_names row_schema, filters.lookup k = none) →
      get_index_names row_schema = i1 :: restIdx →
      (query_cassandra db user collection schema_name row_schema filters
          limit none none).1
        = some (CassQuery.scanFiltering (sanitize_name user) collection
            schema_name i1) ∧
      ∀ r ∈ (query_cassandra db user collection schema_name row_schema
          filters limit none none).2,
        matchesFilters r filters = true) := by
  refine ⟨?_, ?_, ?_⟩
  · constructor
    · intro hdir
      by_contra hno
      push_neg at hno
      have hnone : find_matching_index row_schema filters = none := by
        unfold find_matching_index
        rw [List.findSome?_eq_none_iff]
        intro k hk
        have := hno k hk
        cases hl : filters.lookup k with
        | none => rfl
        | some v =>
            rw [hl] at this
            exact absurd rfl this
      unfold query_cassandra at hdir
      rw [hnone] at hdir
      cases hA : get_index_names row_schema with
      | nil =>
          rw [hA] at hdir
          simp [planIsDirect] at hdir
      | cons i1 rest =>
          rw [hA] at hdir
          simp [planIsDirect] at hdir
    · intro h
      obtain ⟨k, hk, hsome⟩ := h
      cases hfmi : find_matching_index row_schema filters with
      | none =>
          unfold find_matching_index at hfmi
          rw [List.findSome?_eq_none_iff] at hfmi
          have := hfmi k hk
          cases hl : filters.lookup k with
          | none => rw [hl] at hsome; exact absurd hsome (by simp)
          | some v => rw [hl] at this; exact absurd this (by simp)
      | some im =>
          unfold query_cassandra
          rw [hfmi]
          simp [planIsDirect]
  · intro i val hfind hlook
    have hfmi : find_matching_index row_schema filters
        = some (i, [pyStr val]) := by
      unfold find_matching_index
      have := findSome?_of_find?
        (fun index_name =>
          match filters.lookup index_name with
          | some value => some (index_name, [pyStr value])
          | none => none)
        (fun n => (filters.lookup n).isSome)
        (fun a => by
          cases hl : filters.lookup a with
          | none => simp [hl]
          | some v => simp [hl])
        (get_index_names row_schema) i hfind
      rw [this]
      show (match filters.lookup i with
        | some value => some (i, [pyStr value])
        | none => none) = some (i, [pyStr val])
      rw [hlook]
    unfold query_cassandra
    rw [hfmi]
  · intro i1 restIdx hnone hA
    have hfmi : find_matching_index row_schema filters = none := by
      unfold find_matching_index
      rw [List.findSome?_eq_none_iff]
      intro k hk
      rw [hnone k hk]
    constructor
    · unfold query_cassandra
      rw [hfmi, hA]
    · intro r hr
      unfold query_cassandra at hr
      rw [hfmi, hA] at hr
      exact scanLoop_sound filters limit _ [] (by simp) r hr

/-- Witness for C2 on scenario S5: an equality filter on the indexed
field `email` of `customer_records` yields a direct read with
`index_name = "email"` and `index_value = ["john@example.com"]`. -/
theorem c2_witness :
    planIsDirect (query_cassandra [] "test_user" "c" "customer_records"
        customerRecordsSchema
        [("email", FilterValue.scalar (FilterScalar.s "john@example.com"))]
        100 none none).1 = true ∧
    (query_cassandra [] "test_user" "c" "customer_records"
        customerRecordsSchema
        [("email", FilterValue.scalar (FilterScalar.s "john@example.com"))]
        100 none none).1
      = some (CassQuery.direct (sanitize_name "test_user") "c"
          "customer_records" "email" ["john@example.com"] 100) := by
  constructor
  · exact (c2_query_planning [] "test_user" "c" "customer_records"
      customerRecordsSchema
      [("email", FilterValue.scalar (FilterScalar.s "john@example.com"))]
      100).1.mpr ⟨"email", by decide, by decide⟩
  · exact (c2_query_planning [] "test_user" "c" "customer_records"
      customerRecordsSchema
      [("email", FilterValue.scalar (FilterScalar.s "john@example.com"))]
      100).2.1 "email"
      (FilterValue.scalar (FilterScalar.s "john@example.com"))
      (by decide) (by decide)

/-- CLAIM C10: the recognized operator suffixes are exactly
`{gt, gte, lt, lte, contains, in}`; any key whose last-underscore suffix
is outside that set -- including the `_startsWith`, `_endsWith` and
`_not` keys produced by the filter normalizer -- is treated whole as a
field name under equality, so a non-None filter on such a key rejects
every row lacking a field of that literal name; and every key of the
form `f_not_in` parses as operator `in` on field `f_not`. -/
theorem c10_unknown_suffix_eq (key pre suf : String)
    (hsplit : rsplitUnderscore key = some (pre, suf))
    (hops : suf ∉ knownOps) :
    parseFilterField key = (key, "eq") ∧
    (∀ (v : FilterValue) (filters : List (String × FilterValue))
        (row_dict : List (String × String)),
      (key, v) ∈ filters → v ≠ FilterValue.vnull →
      row_dict.lookup key = none →
      matchesFilters row_dict filters = false) ∧
    (∀ f : String, parseFilterField (f ++ "_not_in") = (f ++ "_not", "in")) := by
  have hparse : parseFilterField key = (key, "eq") := by
    unfold parseFilterField
    rw [hsplit]
    simp only
    rw [if_neg (by simpa using hops)]
  refine ⟨hparse, ?_, ?_⟩
  · intro v filters row_dict hmem hv hlook
    have hb : (v == FilterValue.vnull) = false := by
      simp [hv]
    have hnot : ¬ (matchesFilters row_dict filters = true) := by
      intro hall
      unfold matchesFilters at hall
      have hx := List.all_eq_true.mp hall (key, v) hmem
      simp only at hx
      rw [hb] at hx
      simp only [Bool.false_eq_true, if_false] at hx
      rw [hparse] at hx
      simp only at hx
      rw [hlook] at hx
      exact absurd hx (by simp)
    exact Bool.eq_false_iff.mpr hnot
  · intro f
    have hdata : (f ++ "_not_in").data.reverse
        = 'n' :: 'i' :: '_' :: 't' :: 'o' :: 'n' :: '_' :: f.data.reverse := by
      rw [String.data_append, List.reverse_append]
      rfl
    have htake : List.takeWhile (fun c => !(c == '_'))
        ('n' :: 'i' :: '_' :: 't' :: 'o' :: 'n' :: '_' :: f.data.reverse)
        = ['n', 'i'] := rfl
    have hdrop : List.dropWhile (fun c => !(c == '_'))
        ('n' :: 'i' :: '_' :: 't' :: 'o' :: 'n' :: '_' :: f.data.reverse)
        = '_' :: 't' :: 'o' :: 'n' :: '_' :: f.data.reverse := rfl
    have hsplit2 : rsplitUnderscore (f ++ "_not_in")
        = some (f ++ "_not", "in") := by
      unfold rsplitUnderscore
      rw [hdata]
      simp only [htake, hdrop]
      have hrev : ('t' :: 'o' :: 'n' :: '_' :: f.data.reverse).reverse
          = f.data ++ ['_', 'n', 'o', 't'] := by
        simp
      congr 1
      rw [Prod.ext_iff]
      constructor
      · apply String.ext
        show ('t' :: 'o' :: 'n' :: '_' :: f.data.reverse).reverse
          = (f ++ "_not").data
        rw [hrev, String.data_append]
      · rfl
    unfold parseFilterField
    rw [hsplit2]
    simp only
    rw [if_pos (by decide : ("in" : String) ∈ knownOps)]

/-- Witness for C10: `name_startsWith` (emitted by the `startsWith`
filter operator) is parsed as a field name under equality, so the
filter rejects a row that has `name` but not `name_startsWith`; and
`status_not_in` parses as `in` on `status_not`. -/
theorem c10_witness :
    (rsplitUnderscore "name_startsWith" = some ("name", "startsWith")) ∧
    parseFilterField "name_startsWith" = ("name_startsWith", "eq") ∧
    matchesFilters [("name", "John Doe")]
      [("name_startsWith", FilterValue.scalar (FilterScalar.s "Jo"))]
      = false ∧
    parseFilterField ("status" ++ "_not_in") = ("status" ++ "_not", "in") := by
  have h := c10_unknown_suffix_eq "name_startsWith" "name" "startsWith"
    (by decide) (by decide)
  refine ⟨by decide, h.1, ?_, h.2.2 "status"⟩
  exact h.2.1 (FilterValue.scalar (FilterScalar.s "Jo"))
    [("name_startsWith", FilterValue.scalar (FilterScalar.s "Jo"))]
    [("name", "John Doe")]
    (by simp) (by decide) (by decide)

/-! ## Rows query request handling (`on_message`, service.py 440-499)

GraphQL execution itself (`strawberry.Schema.execute`) is external; it
is modelled as an abstract executor function producing a `GqlResult`
with the serialized data (when any), resolver errors and extensions.
What is embedded is the control flow of `execute_graphql_query` and
`on_message`: with no schema loaded, `execute_graphql_query` raises
`RuntimeError("No GraphQL schema available - no schemas loaded")` and
the handler catches it into an error response. -/

structure Error where
  type : String
  message : String
  deriving DecidableEq, Repr

structure GraphQLError where
  message : String
  path : List String
  extensions : List (String × String)
  deriving DecidableEq, Repr

structure RowsQueryRequest where
  user : String
  collection : String
  query : String
  gql_variables : List (String × String)
  operation_name : Option String
  deriving DecidableEq, Repr

structure RowsQueryResponse where
  error : Option Error
  data : Option String
  errors : List GraphQLError
  extensions : List (String × String)
  deriving DecidableEq, Repr

/-- Outcome of `strawberry.Schema.execute`: serialized data (none models
a null GraphQL `data`), resolver errors, extensions. -/
structure GqlResult where
  data : Option String
  errors : List GraphQLError
  extensions : List (String × String)
  deriving DecidableEq, Repr

/-- Message of the RuntimeError raised by `execute_graphql_query` when
`self.graphql_schema` is None (service.py line 397). -/
def noSchemaMsg : String := "No GraphQL schema available - no schemas loaded"

/-- `Processor.execute_graphql_query` (service.py lines 386-438) with
the external GraphQL engine abstracted as `graphql_schema`; the raised
RuntimeError is the `Except.error` carrying `str(e)`. -/
def execute_graphql_query
    (graphql_schema : Option (RowsQueryRequest → GqlResult))
    (request : RowsQueryRequest) : Except String GqlResult :=
  match graphql_schema with
  | none => Except.error noSchemaMsg
  | some engine => Except.ok (engine request)

/-- `Processor.on_message` (service.py lines 440-499): build the
response from the execution result; any exception becomes a
`rows-query-error` envelope with `data = None` and no GraphQL errors. -/
def on_message_rows_query
    (graphql_schema : Option (RowsQueryRequest → GqlResult))
    (request : RowsQueryRequest) : RowsQueryResponse :=
  match execute_graphql_query graphql_schema request with
  | Except.error e => ⟨some ⟨"rows-query-error", e⟩, none, [], []⟩
  | Except.ok result =>
      ⟨none,
       (match result.data with
        | some d => some d
        | none => some "null"),
       result.errors, result.extensions⟩

/-- CLAIM C8 counterexample: with no schema loaded the top-level error
message is `"No GraphQL schema available - no schemas loaded"`, not the
claimed `"No GraphQL schema available"`. -/
theorem c8_counterexample :
    (on_message_rows_query none ⟨"u", "c", "query", [], none⟩).error
      = some ⟨"rows-query-error",
          "No GraphQL schema available - no schemas loaded"⟩ ∧
    (on_message_rows_query none ⟨"u", "c", "query", [], none⟩).error
      ≠ some ⟨"rows-query-error", "No GraphQL schema available"⟩ := by
  constructor
  · rfl
  · decide

/-- CLAIM C8 (amended): whenever the row query service handles a request
with no GraphQL schema available, the response carries the top-level
error `type = "rows-query-error"` with message
`"No GraphQL schema available - no schemas loaded"`, `data` null and no
GraphQL errors. -/
theorem c8_no_schema_response (request : RowsQueryRequest) :
    on_message_rows_query none request
      = ⟨some ⟨"rows-query-error",
          "No GraphQL schema available - no schemas loaded"⟩,
         none, [], []⟩ := rfl

/-! ## Row embeddings query service (`query/row_embeddings/qdrant/service.py`)

The Qdrant store is a list of collection names plus an abstract
nearest-neighbour search function returning payloads and scores. -/

structure RowEmbeddingsRequest where
  vectors : List (List ℚ)
  limit : ℕ
  user : String
  collection : String
  schema_name : String
  index_name : Option String
  deriving DecidableEq, Repr

structure RowIndexMatch where
  index_name : String
  index_value : List String
  text : String
  score : ℚ
  deriving DecidableEq, Repr

structure RowEmbeddingsResponse where
  error : Option Error
  «matches» : List RowIndexMatch
  deriving DecidableEq, Repr

/-- Payload-bearing point returned by `qdrant.query_points`. -/
structure QdrantPoint where
  payload_index_name : String
  payload_index_value : List String
  payload_text : String
  score : ℚ
  deriving DecidableEq, Repr

/-- `Processor.find_collection` (service.py lines 70-91): first stored
collection whose name starts with
`rows_{sanitize(user)}_{sanitize(collection)}_{sanitize(schema_name)}_`. -/
def find_collection (allCollections : List String)
    (user collection schema_name : String) : Option String :=
  let p := "rows_" ++ sanitize_name user ++ "_" ++
    sanitize_name collection ++ "_" ++ sanitize_name schema_name ++ "_"
  match allCollections.filter (fun n => p.data.isPrefixOf n.data) with
  | [] => none
  | m :: _ => some m

/-- `Processor.query_row_embeddings` (service.py lines 93-148) with the
nearest-neighbour search abstracted as `searchFn` (collection, vector,
limit, optional index_name filter). -/
def query_row_embeddings (allCollections : List String)
    (searchFn : String → List ℚ → ℕ → Option String → List QdrantPoint)
    (request : RowEmbeddingsRequest) : List RowIndexMatch :=
  match find_collection allCollections request.user request.collection
      request.schema_name with
  | none => []
  | some qdrant_collection =>
      request.vectors.flatMap (fun vec =>
        (searchFn qdrant_collection vec request.limit
            request.index_name).map
          (fun point => ⟨point.payload_index_name,
            point.payload_index_value, point.payload_text, point.score⟩))

/-- `Processor.on_message` (service.py lines 150-186), success path:
the response carries the matches with `error = None`. -/
def on_message_row_embeddings (allCollections : List String)
    (searchFn : String → List ℚ → ℕ → Option String → List QdrantPoint)
    (request : RowEmbeddingsRequest) : RowEmbeddingsResponse :=
  ⟨none, query_row_embeddings allCollections searchFn request⟩

/-- CLAIM C9: when no stored collection name starts with the request
prefix `rows_{sanitize(user)}_{sanitize(collection)}_{sanitize(schema_name)}_`,
the response has `matches = []` and `error = null`. -/
theorem c9_missing_collection_empty (allCollections : List String)
    (searchFn : String → List ℚ → ℕ → Option String → List QdrantPoint)
    (request : RowEmbeddingsRequest)
    (h : ∀ name ∈ allCollections,
      ¬ (("rows_" ++ sanitize_name request.user ++ "_" ++
          sanitize_name request.collection ++ "_" ++
          sanitize_name request.schema_name ++ "_").data.isPrefixOf
            name.data = true)) :
    on_message_row_embeddings allCollections searchFn request
      = ⟨none, []⟩ := by
  unfold on_message_row_embeddings query_row_embeddings find_collection
  have hfil : allCollections.filter (fun n =>
      ("rows_" ++ sanitize_name request.user ++ "_" ++
        sanitize_name request.collection ++ "_" ++
        sanitize_name request.schema_name ++ "_").data.isPrefixOf n.data)
      = [] := List.filter_eq_nil_iff.mpr h
  simp only [hfil]

/-- Witness for C9 on scenario S7: a `customer_records` request against
a store holding only an unrelated collection (and a search function
that would return a match) yields `matches = []`, `error = null`. -/
theorem c9_witness :
    (∀ name ∈ ["rows_u_c_other_3"],
      ¬ (("rows_" ++ sanitize_name "u" ++ "_" ++ sanitize_name "c" ++
          "_" ++ sanitize_name "customer_records" ++
          "_").data.isPrefixOf name.data = true)) ∧
    on_message_row_embeddings ["rows_u_c_other_3"]
        (fun _ _ _ _ => [⟨"email", ["john@example.com"],
          "john@example.com", 1⟩])
        ⟨[[1, 2]], 5, "u", "c", "customer_records", some "email"⟩
      = ⟨none, []⟩ := by
  refine ⟨by decide, ?_⟩
  exact c9_missing_collection_empty ["rows_u_c_other_3"]
    (fun _ _ _ _ => [⟨"email", ["john@example.com"], "john@example.com", 1⟩])
    ⟨[[1, 2]], 5, "u", "c", "customer_records", some "email"⟩
    (by decide)

end TrustGraph
